import Mathlib

/-!
# SnapMatch: verification of the fingerprinting and matching engine

Shallow embedding of the SnapMatch Python package
(`snapmatch/hashing.py`, `snapmatch/matching.py`, `snapmatch/io_utils.py`,
`snapmatch/cli.py`).  Pure computations (the dHash bit loop, Hamming
distance, the best-match scan, the cache partition/merge logic) are
translated directly; I/O effects (image decoding, `stat`, the cache file)
are modelled as explicit oracles and state passed through the functions
that use them.
-/

namespace SnapMatch

/-! ## Hamming distance (`hashing.py`, `hamming_distance`)

Python computes `(a ^ b).bit_count()`.  `bitCount` embeds `int.bit_count`
on natural numbers; the fuel argument makes it structurally recursive so
that it evaluates by `rfl`/`decide`. -/

def bitCountAux : Nat → Nat → Nat
  | 0, _ => 0
  | fuel + 1, n => if n = 0 then 0 else n % 2 + bitCountAux fuel (n / 2)

def bitCount (n : Nat) : Nat :=
  bitCountAux n n

def hamming_distance (a b : Nat) : Nat :=
  bitCount (a ^^^ b)

theorem bitCountAux_congr : ∀ f₁ f₂ n, n ≤ f₁ → n ≤ f₂ →
    bitCountAux f₁ n = bitCountAux f₂ n := by
  intro f₁
  induction f₁ with
  | zero =>
    intro f₂ n h₁ _
    interval_cases n
    cases f₂ <;> simp [bitCountAux]
  | succ f ih =>
    intro f₂ n h₁ h₂
    match f₂, n with
    | g, 0 => cases g <;> simp [bitCountAux]
    | 0, n + 1 => omega
    | g + 1, n + 1 =>
      simp only [bitCountAux]
      rw [ih g ((n + 1) / 2) (by omega) (by omega)]

theorem bitCount_eq (n : Nat) (hn : n ≠ 0) :
    bitCount n = n % 2 + bitCount (n / 2) := by
  unfold bitCount
  match n, hn with
  | n + 1, _ =>
    simp only [bitCountAux]
    rw [bitCountAux_congr n ((n + 1) / 2) ((n + 1) / 2) (by omega) (by omega)]
    simp

theorem bitCount_zero : bitCount 0 = 0 := rfl

theorem bitCount_le_of_lt_two_pow : ∀ k n, n < 2 ^ k → bitCount n ≤ k := by
  intro k
  induction k with
  | zero =>
    intro n hn
    interval_cases n
    simp [bitCount_zero]
  | succ k ih =>
    intro n hn
    rcases Nat.eq_zero_or_pos n with h | h
    · subst h; simp [bitCount_zero]
    · rw [bitCount_eq n (by omega)]
      have hdiv : n / 2 < 2 ^ k := by
        rw [Nat.pow_succ] at hn
        omega
      have := ih (n / 2) hdiv
      omega

theorem hamming_distance_comm (a b : Nat) :
    hamming_distance a b = hamming_distance b a := by
  unfold hamming_distance
  rw [Nat.xor_comm]

theorem hamming_distance_self (a : Nat) : hamming_distance a a = 0 := by
  unfold hamming_distance
  rw [Nat.xor_self]
  exact bitCount_zero

theorem hamming_distance_le_64 {a b : Nat} (ha : a < 2 ^ 64) (hb : b < 2 ^ 64) :
    hamming_distance a b ≤ 64 :=
  bitCount_le_of_lt_two_pow 64 (a ^^^ b) (Nat.xor_lt_two_pow ha hb)

/-! ## dHash bit packing (`hashing.py`, `dhash64`)

`dhash_of_pixels` embeds the pure part of `dhash64`: the nested loop that
compares horizontally adjacent pixels of the decoded 9×8 grayscale grid
and packs the 64 comparison bits, most significant bit first.  The loop
state is the pair `(h, bit)` exactly as in the source; the image decoding
and resizing performed by Pillow is an oracle (see `dhash64` below). -/

def dhashStep (px : List Nat) (base : Nat) (acc : Nat × Nat) (col : Nat) : Nat × Nat :=
  let left := px.getD (base + col) 0
  let right := px.getD (base + col + 1) 0
  (if right > left then acc.1 ||| acc.2 else acc.1, acc.2 >>> 1)

def dhash_of_pixels (px : List Nat) : Nat :=
  ((List.range 8).foldl
    (fun acc row => (List.range 8).foldl (dhashStep px (row * 9)) acc)
    (0, 1 <<< 63)).1

/-- The comparison bit of `dhash64` at row base `base`, column `col`:
set iff the pixel to the right is strictly brighter. -/
def cmpBit (px : List Nat) (base col : Nat) : Bool :=
  px.getD (base + col) 0 < px.getD (base + col + 1) 0

/-- The bits contributed by columns `a, a+1, …, a+n-1` of the row at
`base`, placed at bit positions `p, p-1, …, p-n+1`. -/
def rowMask (px : List Nat) (base : Nat) : Nat → Nat → Nat → Nat
  | _, 0, _ => 0
  | a, n + 1, p =>
    (if cmpBit px base a then 2 ^ p else 0) ||| rowMask px base (a + 1) n (p - 1)

/-- The bits contributed by rows `r, r+1, …, r+k-1` of the grid. -/
def gridMask (px : List Nat) : Nat → Nat → Nat
  | _, 0 => 0
  | r, k + 1 => rowMask px (r * 9) 0 8 (63 - 8 * r) ||| gridMask px (r + 1) k

theorem foldl_dhashStep_row (px : List Nat) (base : Nat) :
    ∀ n a h p, n ≤ p + 1 →
      (List.range' a n).foldl (dhashStep px base) (h, 2 ^ p) =
        (h ||| rowMask px base a n p, 2 ^ p >>> n) := by
  intro n
  induction n with
  | zero => intro a h p _; simp [rowMask]
  | succ n ih =>
    intro a h p hn
    rw [List.range'_succ, List.foldl_cons]
    have hstep : dhashStep px base (h, 2 ^ p) a =
        (if cmpBit px base a then h ||| 2 ^ p else h, 2 ^ p >>> 1) := by
      simp only [dhashStep, cmpBit]
      by_cases hcb : px.getD (base + a) 0 < px.getD (base + a + 1) 0 <;>
        simp [hcb]
    rw [hstep]
    rcases Nat.eq_zero_or_pos n with hn0 | hnpos
    · subst hn0
      simp only [List.range', List.foldl_nil, rowMask, Prod.mk.injEq]
      refine ⟨?_, by simp⟩
      by_cases hcb : cmpBit px base a <;> simp [hcb]
    · have hp : 1 ≤ p := by omega
      have hpow : 2 ^ p >>> 1 = 2 ^ (p - 1) := by
        rw [Nat.shiftRight_eq_div_pow, pow_one,
          Nat.pow_div hp (by norm_num)]
      rw [hpow, ih (a + 1) (if cmpBit px base a then h ||| 2 ^ p else h) (p - 1) (by omega)]
      simp only [Prod.mk.injEq]
      refine ⟨?_, ?_⟩
      · by_cases hcb : cmpBit px base a <;>
          simp [hcb, rowMask, Nat.or_assoc]
      · rw [Nat.shiftRight_eq_div_pow, Nat.shiftRight_eq_div_pow]
        by_cases hnp : n ≤ p - 1
        · rw [Nat.pow_div hnp (by norm_num), Nat.pow_div (by omega) (by norm_num)]
          congr 1
          omega
        · have hnp2 : n = p := by omega
          subst hnp2
          rw [Nat.div_eq_of_lt (Nat.pow_lt_pow_right (by norm_num) (by omega)),
            Nat.div_eq_of_lt (Nat.pow_lt_pow_right (by norm_num) (by omega))]

theorem rowMask_testBit (px : List Nat) (base : Nat) :
    ∀ n a p q, n ≤ p + 1 →
      (rowMask px base a n p).testBit q =
        (decide (q ≤ p) && decide (p - q < n) && cmpBit px base (a + (p - q))) := by
  intro n
  induction n with
  | zero =>
    intro a p q _
    simp [rowMask]
  | succ n ih =>
    intro a p q hn
    simp only [rowMask, Nat.testBit_or]
    rw [ih (a + 1) (p - 1) q (by omega)]
    by_cases hq : q = p
    · have h2 : (decide (q ≤ p - 1) && decide (p - 1 - q < n) &&
          cmpBit px base (a + 1 + (p - 1 - q))) = false := by
        rcases Nat.eq_zero_or_pos p with hp0 | hpp
        · have hn0 : n = 0 := by omega
          simp [hn0]
        · simp [show ¬(q ≤ p - 1) by omega]
      rw [h2, Bool.or_false]
      have h1 : (if cmpBit px base a then 2 ^ p else 0).testBit q = cmpBit px base a := by
        by_cases hcb : cmpBit px base a <;>
          simp [hcb, hq, Nat.testBit_two_pow_self]
      rw [h1]
      have ha : a + (p - q) = a := by omega
      simp [hq, ha, show p - q < n + 1 by omega]
    · have hne : (2 ^ p).testBit q = false := Nat.testBit_two_pow_of_ne (by omega)
      have hite : (if cmpBit px base a then 2 ^ p else 0).testBit q = false := by
        by_cases hcb : cmpBit px base a <;> simp [hcb, hne]
      rw [hite, Bool.false_or]
      by_cases hqp : q ≤ p
      · have hqp1 : q ≤ p - 1 := by omega
        have harg : a + 1 + (p - 1 - q) = a + (p - q) := by omega
        have hcnt : (p - 1 - q < n) = (p - q < n + 1) := by
          simp only [eq_iff_iff]
          omega
        rw [harg]
        simp [hqp, hqp1, hcnt]
      · simp [hqp, show ¬(q ≤ p - 1) by omega]

theorem foldl_dhashStep_rows (px : List Nat) :
    ∀ k r h, 8 * (r + k) ≤ 64 →
      (List.range' r k).foldl
        (fun acc row => (List.range' 0 8).foldl (dhashStep px (row * 9)) acc)
        (h, 2 ^ (63 - 8 * r)) =
      (h ||| gridMask px r k, 2 ^ (63 - 8 * r) >>> (8 * k)) := by
  intro k
  induction k with
  | zero => intro r h _; simp [gridMask]
  | succ k ih =>
    intro r h hk
    rw [List.range'_succ r k 1, List.foldl_cons]
    rw [foldl_dhashStep_row px (r * 9) 8 0 h (63 - 8 * r) (by omega)]
    rcases Nat.eq_zero_or_pos k with hk0 | hkpos
    · subst hk0
      simp only [List.range', List.foldl_nil, gridMask, Prod.mk.injEq]
      refine ⟨by simp [Nat.or_assoc], by trivial⟩
    · have hle : 8 ≤ 63 - 8 * r := by omega
      have hpow : 2 ^ (63 - 8 * r) >>> 8 = 2 ^ (63 - 8 * (r + 1)) := by
        rw [Nat.shiftRight_eq_div_pow, Nat.pow_div hle (by norm_num)]
        congr 1
      rw [hpow, ih (r + 1) (h ||| rowMask px (r * 9) 0 8 (63 - 8 * r)) (by omega)]
      simp only [Prod.mk.injEq]
      refine ⟨by simp [gridMask, Nat.or_assoc], ?_⟩
      rw [← hpow, ← Nat.shiftRight_add]
      congr 1
      omega

theorem dhash_of_pixels_eq_gridMask (px : List Nat) :
    dhash_of_pixels px = gridMask px 0 8 := by
  unfold dhash_of_pixels
  rw [List.range_eq_range']
  conv =>
    lhs
    rw [show ((0 : Nat), 1 <<< 63) = ((0 : Nat), 2 ^ (63 - 8 * 0)) from by norm_num [Nat.one_shiftLeft]]
  rw [foldl_dhashStep_rows px 8 0 0 (by norm_num)]
  simp

theorem dhash_of_pixels_testBit (px : List Nat) (r c : Nat)
    (hr : r < 8) (hc : c < 8) :
    (dhash_of_pixels px).testBit (63 - (r * 8 + c)) =
      decide (px.getD (r * 9 + c) 0 < px.getD (r * 9 + c + 1) 0) := by
  rw [dhash_of_pixels_eq_gridMask]
  have hg : gridMask px 0 8 =
      rowMask px 0 0 8 63 ||| (rowMask px 9 0 8 55 ||| (rowMask px 18 0 8 47 |||
        (rowMask px 27 0 8 39 ||| (rowMask px 36 0 8 31 ||| (rowMask px 45 0 8 23 |||
          (rowMask px 54 0 8 15 ||| (rowMask px 63 0 8 7 ||| 0))))))) := rfl
  rw [hg]
  simp only [Nat.testBit_or, Nat.zero_testBit, Bool.or_false]
  rw [rowMask_testBit px 0 8 0 63 _ (by norm_num),
    rowMask_testBit px 9 8 0 55 _ (by norm_num),
    rowMask_testBit px 18 8 0 47 _ (by norm_num),
    rowMask_testBit px 27 8 0 39 _ (by norm_num),
    rowMask_testBit px 36 8 0 31 _ (by norm_num),
    rowMask_testBit px 45 8 0 23 _ (by norm_num),
    rowMask_testBit px 54 8 0 15 _ (by norm_num),
    rowMask_testBit px 63 8 0 7 _ (by norm_num)]
  interval_cases r <;> interval_cases c <;> simp [cmpBit]

/-! ## Fingerprinter front end (`hashing.py`, `dhash64`; `cli.py` workers)

Image decoding (Pillow `Image.open` + grayscale conversion + 9×8 bilinear
resize) is I/O: it is modelled by an oracle `decode` returning the 72
luminance values, or `none` when the file cannot be opened or decoded
(the `except` branch of `dhash64`). -/

structure ImageHash where
  path : String
  dhash : Nat
  deriving DecidableEq, Repr

def dhash64 (decode : String → Option (List Nat)) (p : String) : Option Nat :=
  (decode p).map dhash_of_pixels

/-- `cli._hash_path_worker`. -/
def hash_path_worker (decode : String → Option (List Nat)) (p : String) :
    Option ImageHash :=
  match dhash64 decode p with
  | none => none
  | some h => some ⟨p, h⟩

/-- `cli._hash_edited_images`: hash every query file, silently skipping
files whose decode fails. -/
def hash_edited_images (decode : String → Option (List Nat))
    (paths : List String) : List ImageHash :=
  paths.foldl
    (fun out p =>
      match dhash64 decode p with
      | none => out
      | some h => out ++ [⟨p, h⟩])
    []

/-! ## Matcher (`matching.py`, `find_best_match`) -/

structure MatchResult where
  edited_path : String
  edited_hash : Nat
  matched_raw_path : Option String
  matched_raw_hash : Option Nat
  distance : Option Nat
  status : String
  deriving DecidableEq, Repr

/-- The scanning loop of `find_best_match`: state `(best_idx, best_dist)`
starting from `(None, 10**9)`; an entry replaces the current best only on a
strictly smaller distance, and the scan breaks as soon as a distance of 0
is recorded. -/
def scanLoop (ehash : Nat) : List ImageHash → Nat → Option Nat × Nat → Option Nat × Nat
  | [], _, acc => acc
  | rh :: rest, i, acc =>
    let d := hamming_distance ehash rh.dhash
    if d < acc.2 then
      if d = 0 then (some i, d)
      else scanLoop ehash rest (i + 1) (some i, d)
    else scanLoop ehash rest (i + 1) acc

def find_best_match (edited : ImageHash) (raw_hashes : List ImageHash)
    (max_distance : Int) : MatchResult :=
  match scanLoop edited.dhash raw_hashes 0 (none, 10 ^ 9) with
  | (none, _) =>
    { edited_path := edited.path
      edited_hash := edited.dhash
      matched_raw_path := none
      matched_raw_hash := none
      distance := none
      status := "no_match" }
  | (some i, best_dist) =>
    let best := raw_hashes.getD i ⟨"", 0⟩
    if (best_dist : Int) ≤ max_distance then
      { edited_path := edited.path
        edited_hash := edited.dhash
        matched_raw_path := some best.path
        matched_raw_hash := some best.dhash
        distance := some best_dist
        status := "matched" }
    else
      { edited_path := edited.path
        edited_hash := edited.dhash
        matched_raw_path := some best.path
        matched_raw_hash := some best.dhash
        distance := some best_dist
        status := "no_match" }

/-- The scan without the distance-0 break, used to show the break does not
change the outcome. -/
def scanNoBreak (ehash : Nat) : List ImageHash → Nat → Option Nat × Nat → Option Nat × Nat
  | [], _, acc => acc
  | rh :: rest, i, acc =>
    let d := hamming_distance ehash rh.dhash
    if d < acc.2 then scanNoBreak ehash rest (i + 1) (some i, d)
    else scanNoBreak ehash rest (i + 1) acc

/-- Functional best-candidate recursion: index and distance of the
first-seen minimum-distance entry. -/
def bestSpec (ehash : Nat) : List ImageHash → Option (Nat × Nat)
  | [] => none
  | rh :: rest =>
    let d := hamming_distance ehash rh.dhash
    match bestSpec ehash rest with
    | none => some (0, d)
    | some (k, m) => if d ≤ m then some (0, d) else some (k + 1, m)

theorem scanNoBreak_zero (e : Nat) :
    ∀ l i j, scanNoBreak e l i (some j, 0) = (some j, 0) := by
  intro l
  induction l with
  | nil => intro i j; rfl
  | cons rh rest ih =>
    intro i j
    simp only [scanNoBreak]
    rw [if_neg (by omega)]
    exact ih (i + 1) j

theorem scanLoop_eq_scanNoBreak (e : Nat) :
    ∀ l i acc, scanLoop e l i acc = scanNoBreak e l i acc := by
  intro l
  induction l with
  | nil => intro i acc; rfl
  | cons rh rest ih =>
    intro i acc
    simp only [scanLoop, scanNoBreak]
    by_cases hd : hamming_distance e rh.dhash < acc.2
    · rw [if_pos hd, if_pos hd]
      by_cases h0 : hamming_distance e rh.dhash = 0
      · rw [if_pos h0, h0, scanNoBreak_zero]
      · rw [if_neg h0, ih]
    · rw [if_neg hd, if_neg hd, ih]

theorem scanNoBreak_some (e : Nat) :
    ∀ l i j b, scanNoBreak e l i (some j, b) =
      match bestSpec e l with
      | none => (some j, b)
      | some (k, m) => if m < b then (some (i + k), m) else (some j, b) := by
  intro l
  induction l with
  | nil => intro i j b; rfl
  | cons rh rest ih =>
    intro i j b
    simp only [scanNoBreak, bestSpec]
    by_cases hd : hamming_distance e rh.dhash < b
    · rw [if_pos hd, ih]
      rcases hrest : bestSpec e rest with _ | ⟨k, m⟩
      · simp [hd]
      · by_cases hdm : hamming_distance e rh.dhash ≤ m
        · simp only [if_pos hdm, if_neg (show ¬m < hamming_distance e rh.dhash by omega)]
          simp [hd]
        · simp only [if_neg hdm, if_pos (show m < hamming_distance e rh.dhash by omega)]
          simp only [if_pos (show m < b by omega)]
          have harith : i + 1 + k = i + (k + 1) := by omega
          rw [harith]
    · rw [if_neg hd, ih]
      rcases hrest : bestSpec e rest with _ | ⟨k, m⟩
      · simp [hd]
      · by_cases hdm : hamming_distance e rh.dhash ≤ m
        · simp only [if_pos hdm, if_neg (show ¬m < hamming_distance e rh.dhash by omega)]
          simp only [if_neg (show ¬hamming_distance e rh.dhash < b by omega),
            if_neg (show ¬m < b by omega)]
        · simp only [if_neg hdm]
          by_cases hmb : m < b
          · simp only [if_pos hmb]
            have harith : i + 1 + k = i + (k + 1) := by omega
            rw [harith]
          · simp only [if_neg hmb]

theorem scanNoBreak_none (e : Nat) (l : List ImageHash) (i B : Nat)
    (hB : ∀ rh ∈ l, hamming_distance e rh.dhash < B) :
    scanNoBreak e l i (none, B) =
      match bestSpec e l with
      | none => (none, B)
      | some (k, m) => (some (i + k), m) := by
  cases l with
  | nil => rfl
  | cons rh rest =>
    simp only [scanNoBreak, bestSpec]
    rw [if_pos (hB rh (by simp))]
    rw [scanNoBreak_some]
    rcases hrest : bestSpec e rest with _ | ⟨k, m⟩
    · simp
    · by_cases hdm : hamming_distance e rh.dhash ≤ m
      · simp only [if_pos hdm,
          if_neg (show ¬m < hamming_distance e rh.dhash by omega)]
        simp
      · simp only [if_neg hdm,
          if_pos (show m < hamming_distance e rh.dhash by omega)]
        have harith : i + 1 + k = i + (k + 1) := by omega
        rw [harith]

theorem bestSpec_props (e : Nat) :
    ∀ l : List ImageHash,
      (bestSpec e l = none → l = []) ∧
      (∀ k m, bestSpec e l = some (k, m) →
        ∃ hk : k < l.length,
          hamming_distance e (l.get ⟨k, hk⟩).dhash = m ∧
          (∀ j (hj : j < l.length), m ≤ hamming_distance e (l.get ⟨j, hj⟩).dhash) ∧
          (∀ j (hj : j < l.length), j < k →
            m < hamming_distance e (l.get ⟨j, hj⟩).dhash)) := by
  intro l
  induction l with
  | nil =>
    refine ⟨fun _ => rfl, fun k m h => ?_⟩
    simp [bestSpec] at h
  | cons rh rest ih =>
    refine ⟨fun h => ?_, fun k m h => ?_⟩
    · simp only [bestSpec] at h
      rcases hrest : bestSpec e rest with _ | ⟨k, m⟩ <;> rw [hrest] at h
      · simp at h
      · by_cases hdm : hamming_distance e rh.dhash ≤ m <;> simp [hdm] at h
    · simp only [bestSpec] at h
      rcases hrest : bestSpec e rest with _ | ⟨k2, m2⟩ <;> rw [hrest] at h
      · have hrest0 : rest = [] := ih.1 hrest
        subst hrest0
        simp only [Option.some.injEq, Prod.mk.injEq] at h
        obtain ⟨hk0, hm⟩ := h
        subst hk0
        refine ⟨by simp, by simp [hm], ?_, ?_⟩
        · intro j hj
          have hj0 : j = 0 := by
            simp only [List.length_cons, List.length_nil] at hj
            omega
          subst hj0
          simp [hm]
        · intro j hj hjk
          omega
      · obtain ⟨hk2, hm2, hmin2, hfirst2⟩ := ih.2 k2 m2 hrest
        dsimp only at h
        by_cases hdm : hamming_distance e rh.dhash ≤ m2
        · rw [if_pos hdm] at h
          simp only [Option.some.injEq, Prod.mk.injEq] at h
          obtain ⟨hk0, hm⟩ := h
          subst hk0
          refine ⟨by simp, by simp [hm], ?_, ?_⟩
          · intro j hj
            cases j with
            | zero => simp [hm]
            | succ j2 =>
              have hj2 : j2 < rest.length := by simpa using hj
              have := hmin2 j2 hj2
              simp only [List.get_cons_succ]
              omega
          · intro j hj hjk
            omega
        · rw [if_neg hdm] at h
          simp only [Option.some.injEq, Prod.mk.injEq] at h
          obtain ⟨hk0, hm⟩ := h
          subst hm
          subst hk0
          refine ⟨by simpa using Nat.succ_lt_succ hk2, by simpa using hm2, ?_, ?_⟩
          · intro j hj
            cases j with
            | zero =>
              have hget : (rh :: rest).get ⟨0, hj⟩ = rh := rfl
              rw [hget]
              omega
            | succ j2 =>
              have hj2 : j2 < rest.length := by simpa using hj
              have := hmin2 j2 hj2
              simp only [List.get_cons_succ]
              omega
          · intro j hj hjk
            cases j with
            | zero =>
              have hget : (rh :: rest).get ⟨0, hj⟩ = rh := rfl
              rw [hget]
              omega
            | succ j2 =>
              have hj2 : j2 < rest.length := by simpa using hj
              have := hfirst2 j2 hj2 (by omega)
              simp only [List.get_cons_succ]
              omega

theorem getD_of_lt (l : List ImageHash) (n : Nat) (d : ImageHash)
    (h : n < l.length) : l.getD n d = l.get ⟨n, h⟩ := by
  simp [List.getD_eq_getElem?_getD, List.getElem?_eq_getElem h, List.get_eq_getElem]

/-- Full characterization of `find_best_match` on a non-empty reference
list whose distances all stay below the `10**9` sentinel: the result
reports the first-seen minimum-distance entry, and the status is decided
by comparing its distance with `max_distance`. -/
theorem find_best_match_spec (edited : ImageHash) (l : List ImageHash) (md : Int)
    (hB : ∀ rh ∈ l, hamming_distance edited.dhash rh.dhash < 10 ^ 9)
    (hne : l ≠ []) :
    ∃ k, ∃ hk : k < l.length,
      find_best_match edited l md =
        { edited_path := edited.path
          edited_hash := edited.dhash
          matched_raw_path := some ((l.get ⟨k, hk⟩).path)
          matched_raw_hash := some ((l.get ⟨k, hk⟩).dhash)
          distance := some (hamming_distance edited.dhash (l.get ⟨k, hk⟩).dhash)
          status := if (hamming_distance edited.dhash (l.get ⟨k, hk⟩).dhash : Int) ≤ md
            then "matched" else "no_match" } ∧
      (∀ j (hj : j < l.length),
        hamming_distance edited.dhash (l.get ⟨k, hk⟩).dhash ≤
          hamming_distance edited.dhash (l.get ⟨j, hj⟩).dhash) ∧
      (∀ j (hj : j < l.length), j < k →
        hamming_distance edited.dhash (l.get ⟨k, hk⟩).dhash <
          hamming_distance edited.dhash (l.get ⟨j, hj⟩).dhash) := by
  rcases hbs : bestSpec edited.dhash l with _ | ⟨k, m⟩
  · exact absurd ((bestSpec_props edited.dhash l).1 hbs) hne
  · obtain ⟨hk, hm, hmin, hfirst⟩ := (bestSpec_props edited.dhash l).2 k m hbs
    refine ⟨k, hk, ?_, hm ▸ hmin, hm ▸ hfirst⟩
    unfold find_best_match
    rw [scanLoop_eq_scanNoBreak, scanNoBreak_none edited.dhash l 0 (10 ^ 9) hB, hbs]
    dsimp only
    rw [Nat.zero_add, getD_of_lt l k ⟨"", 0⟩ hk, hm]
    by_cases hmd : (m : Int) ≤ md
    · rw [if_pos hmd, if_pos hmd]
    · rw [if_neg hmd, if_neg hmd]

theorem find_best_match_nil (edited : ImageHash) (md : Int) :
    find_best_match edited [] md =
      { edited_path := edited.path
        edited_hash := edited.dhash
        matched_raw_path := none
        matched_raw_hash := none
        distance := none
        status := "no_match" } := rfl

/-! ## Fingerprint cache (`io_utils.py`) and orchestrator (`cli.py`)

The filesystem is modelled by a `stat` oracle returning the live
`(st_mtime_ns, st_size)` of a path (or `none` for an `OSError`), and the
cache file by `FsFile`: whether its parent directory exists and its
current content, a list of CSV data rows.  Paths handed to the
orchestrator are taken to be already canonical (`Path.resolve` is the
identity on them). -/

structure CacheEntry where
  mtime_ns : Int
  size : Int
  dhash : Nat
  deriving DecidableEq, Repr

/-- One data row of the cache CSV: `path, mtime_ns, size, dhash`. -/
structure CacheRow where
  path : String
  mtime_ns : Int
  size : Int
  dhash : Nat
  deriving DecidableEq, Repr

structure FsFile where
  parentExists : Bool
  content : Option (List CacheRow)
  deriving DecidableEq, Repr

/-- `io_utils.load_cache` applied to already-parsed rows: build the dict
keyed by path, later rows overwriting earlier ones. -/
def dictInsert (m : List (String × CacheEntry)) (k : String) (v : CacheEntry) :
    List (String × CacheEntry) :=
  if m.any (fun kv => kv.1 = k) then
    m.map (fun kv => if kv.1 = k then (k, v) else kv)
  else
    m ++ [(k, v)]

def dictGet : List (String × CacheEntry) → String → Option CacheEntry
  | [], _ => none
  | (k, v) :: t, q => if k = q then some v else dictGet t q

def load_cache (rows : List CacheRow) : List (String × CacheEntry) :=
  rows.foldl (fun m r => dictInsert m r.path ⟨r.mtime_ns, r.size, r.dhash⟩) []

/-- The rows `io_utils.save_cache` writes: one per hash, with the live
stat of the file at save time; a failing `stat` raises, aborting the
save (`none`). -/
def saveCacheRows (stat : String → Option (Int × Int)) :
    List ImageHash → Option (List CacheRow)
  | [] => some []
  | h :: t =>
    match stat h.path with
    | none => none
    | some st =>
      match saveCacheRows stat t with
      | none => none
      | some rows => some (⟨h.path, st.1, st.2, h.dhash⟩ :: rows)

/-- `io_utils.save_cache` acting on the cache file: create the parent
directory if missing, then replace the whole content with the new rows. -/
def save_cache (stat : String → Option (Int × Int)) (hashes : List ImageHash)
    (fsf : FsFile) : Option FsFile :=
  match saveCacheRows stat hashes with
  | none => none
  | some rows => some ⟨true, some rows⟩

/-- The cache-consultation loop of `cli._hash_raw_images`: partition the
enumerated paths into reused hashes and paths still to fingerprint.  A
path whose `stat` fails is skipped; a cache entry is reused iff its
stored `(mtime_ns, size)` equal the live values. -/
def partitionCache (stat : String → Option (Int × Int))
    (cache : String → Option CacheEntry) :
    List String → List ImageHash × List String
  | [] => ([], [])
  | p :: rest =>
    let (reuse, todo) := partitionCache stat cache rest
    match stat p with
    | none => (reuse, todo)
    | some st =>
      match cache p with
      | some ce =>
        if ce.mtime_ns = st.1 ∧ ce.size = st.2 then
          (⟨p, ce.dhash⟩ :: reuse, todo)
        else
          (reuse, p :: todo)
      | none => (reuse, p :: todo)

/-- `cli._hash_raw_images` up to the cache save: the merged hash list,
plus whether the cache file is written at all (it is not when every path
was served from the cache).  `workers = 1` is the in-process loop; any
other worker count dispatches `hash_path_worker` over the todo list with
an order-preserving pool `map` and collects the non-`None` results in
order. -/
def hash_raw_images (stat : String → Option (Int × Int))
    (decode : String → Option (List Nat))
    (cache : String → Option CacheEntry)
    (paths : List String) (workers : Nat) : List ImageHash × Bool :=
  let (reuse, todo) := partitionCache stat cache paths
  if todo = [] then
    (reuse, false)
  else if workers = 1 then
    (todo.foldl
      (fun out p =>
        match hash_path_worker decode p with
        | none => out
        | some r => out ++ [r])
      reuse, true)
  else
    ((todo.map (hash_path_worker decode)).foldl
      (fun out r =>
        match r with
        | none => out
        | some r => out ++ [r])
      reuse, true)

/-- `cli._hash_raw_images` including its effect on the cache file
(`none` models an exception escaping from `save_cache`). -/
def hash_raw_run (stat : String → Option (Int × Int))
    (decode : String → Option (List Nat))
    (cache : String → Option CacheEntry)
    (paths : List String) (workers : Nat) (fsf : FsFile) :
    Option (List ImageHash × FsFile) :=
  match hash_raw_images stat decode cache paths workers with
  | (out, false) => some (out, fsf)
  | (out, true) =>
    match save_cache stat out fsf with
    | none => none
    | some fsf2 => some (out, fsf2)

theorem foldl_collect (f : String → Option ImageHash) :
    ∀ (todo : List String) (acc : List ImageHash),
      todo.foldl
        (fun out p =>
          match f p with
          | none => out
          | some r => out ++ [r])
        acc = acc ++ todo.filterMap f := by
  intro todo
  induction todo with
  | nil => intro acc; simp
  | cons p rest ih =>
    intro acc
    rw [List.foldl_cons, List.filterMap_cons]
    cases hf : f p with
    | none => rw [ih]
    | some r => rw [ih, List.append_assoc, List.singleton_append]

theorem hash_raw_images_eq (stat : String → Option (Int × Int))
    (decode : String → Option (List Nat))
    (cache : String → Option CacheEntry)
    (paths : List String) (workers : Nat) :
    hash_raw_images stat decode cache paths workers =
      ((partitionCache stat cache paths).1 ++
        ((partitionCache stat cache paths).2.filterMap (hash_path_worker decode)),
       if (partitionCache stat cache paths).2 = [] then false else true) := by
  unfold hash_raw_images
  rcases hpr : partitionCache stat cache paths with ⟨reuse, todo⟩
  dsimp only
  by_cases htodo : todo = []
  · subst htodo
    simp
  · rw [if_neg htodo, if_neg htodo]
    by_cases hw : workers = 1
    · rw [if_pos hw, foldl_collect]
    · rw [if_neg hw, List.foldl_map, foldl_collect]

theorem partitionCache_cons (stat : String → Option (Int × Int))
    (cache : String → Option CacheEntry) (p : String) (rest : List String) :
    partitionCache stat cache (p :: rest) =
      match stat p with
      | none => partitionCache stat cache rest
      | some st =>
        match cache p with
        | some ce =>
          if ce.mtime_ns = st.1 ∧ ce.size = st.2 then
            (⟨p, ce.dhash⟩ :: (partitionCache stat cache rest).1,
              (partitionCache stat cache rest).2)
          else
            ((partitionCache stat cache rest).1, p :: (partitionCache stat cache rest).2)
        | none =>
          ((partitionCache stat cache rest).1, p :: (partitionCache stat cache rest).2) := by
  simp only [partitionCache]

theorem partitionCache_reuse_path (stat : String → Option (Int × Int))
    (cache : String → Option CacheEntry) :
    ∀ (l : List String) (ih : ImageHash),
      ih ∈ (partitionCache stat cache l).1 → ih.path ∈ l := by
  intro l
  induction l with
  | nil => intro ih h; simp [partitionCache] at h
  | cons p rest ihl =>
    intro ih h
    rw [partitionCache_cons] at h
    cases hst : stat p with
    | none =>
      simp only [hst] at h
      exact List.mem_cons_of_mem p (ihl ih h)
    | some st =>
      simp only [hst] at h
      cases hce : cache p with
      | none =>
        simp only [hce] at h
        exact List.mem_cons_of_mem p (ihl ih h)
      | some ce =>
        by_cases heq : ce.mtime_ns = st.1 ∧ ce.size = st.2
        · simp only [hce, if_pos heq] at h
          rcases List.mem_cons.mp h with h1 | h1
          · subst h1; simp
          · exact List.mem_cons_of_mem p (ihl ih h1)
        · simp only [hce, if_neg heq] at h
          exact List.mem_cons_of_mem p (ihl ih h)

theorem partitionCache_todo_mem (stat : String → Option (Int × Int))
    (cache : String → Option CacheEntry) :
    ∀ (l : List String) (q : String),
      q ∈ (partitionCache stat cache l).2 → q ∈ l := by
  intro l
  induction l with
  | nil => intro q h; simp [partitionCache] at h
  | cons p rest ihl =>
    intro q h
    rw [partitionCache_cons] at h
    cases hst : stat p with
    | none =>
      simp only [hst] at h
      exact List.mem_cons_of_mem p (ihl q h)
    | some st =>
      simp only [hst] at h
      cases hce : cache p with
      | none =>
        simp only [hce] at h
        rcases List.mem_cons.mp h with h1 | h1
        · subst h1; simp
        · exact List.mem_cons_of_mem p (ihl q h1)
      | some ce =>
        by_cases heq : ce.mtime_ns = st.1 ∧ ce.size = st.2
        · simp only [hce, if_pos heq] at h
          exact List.mem_cons_of_mem p (ihl q h)
        · simp only [hce, if_neg heq] at h
          rcases List.mem_cons.mp h with h1 | h1
          · subst h1; simp
          · exact List.mem_cons_of_mem p (ihl q h1)

theorem partitionCache_spec (stat : String → Option (Int × Int))
    (cache : String → Option CacheEntry) :
    ∀ (l : List String), l.Nodup → ∀ p ∈ l, ∀ st, stat p = some st →
      ((∃ ce, cache p = some ce ∧ ce.mtime_ns = st.1 ∧ ce.size = st.2) →
        (∃ ce, cache p = some ce ∧
          ImageHash.mk p ce.dhash ∈ (partitionCache stat cache l).1) ∧
        p ∉ (partitionCache stat cache l).2) ∧
      ((∀ ce, cache p = some ce → ¬(ce.mtime_ns = st.1 ∧ ce.size = st.2)) →
        p ∈ (partitionCache stat cache l).2 ∧
        ∀ ih ∈ (partitionCache stat cache l).1, ih.path ≠ p) := by
  intro l
  induction l with
  | nil => intro _ p hp; simp at hp
  | cons q rest ihl =>
    intro hnd p hp st hst
    have hndr : rest.Nodup := (List.nodup_cons.mp hnd).2
    have hqr : q ∉ rest := (List.nodup_cons.mp hnd).1
    rcases List.mem_cons.mp hp with hpq | hpr
    · subst hpq
      rw [partitionCache_cons]
      refine ⟨fun ⟨ce, hce, hce1, hce2⟩ => ?_, fun hmiss => ?_⟩
      · simp only [hst, hce, if_pos (And.intro hce1 hce2)]
        refine ⟨⟨ce, rfl, by simp⟩, fun hmem => ?_⟩
        exact hqr (partitionCache_todo_mem stat cache rest p hmem)
      · cases hce : cache p with
        | none =>
          simp only [hst, hce]
          refine ⟨by simp, fun ih hmem hpath => ?_⟩
          exact hqr (hpath ▸ partitionCache_reuse_path stat cache rest ih hmem)
        | some ce =>
          simp only [hst, hce, if_neg (hmiss ce hce)]
          refine ⟨by simp, fun ih hmem hpath => ?_⟩
          exact hqr (hpath ▸ partitionCache_reuse_path stat cache rest ih hmem)
    · have hpq : p ≠ q := fun h => hqr (h ▸ hpr)
      have ihp := ihl hndr p hpr st hst
      rw [partitionCache_cons]
      cases hstq : stat q with
      | none => simpa only [hstq] using ihp
      | some stq =>
        cases hceq : cache q with
        | none =>
          simp only [hstq, hceq]
          refine ⟨fun hhit => ?_, fun hmiss => ?_⟩
          · obtain ⟨⟨ce, hce, hmem⟩, hnmem⟩ := ihp.1 hhit
            exact ⟨⟨ce, hce, hmem⟩, fun hmem2 => by
              rcases List.mem_cons.mp hmem2 with h1 | h1
              · exact hpq h1
              · exact hnmem h1⟩
          · obtain ⟨hmem, hall⟩ := ihp.2 hmiss
            exact ⟨List.mem_cons_of_mem q hmem, hall⟩
        | some ceq =>
          by_cases heq : ceq.mtime_ns = stq.1 ∧ ceq.size = stq.2
          · simp only [hstq, hceq, if_pos heq]
            refine ⟨fun hhit => ?_, fun hmiss => ?_⟩
            · obtain ⟨⟨ce, hce, hmem⟩, hnmem⟩ := ihp.1 hhit
              exact ⟨⟨ce, hce, List.mem_cons_of_mem _ hmem⟩, hnmem⟩
            · obtain ⟨hmem, hall⟩ := ihp.2 hmiss
              refine ⟨hmem, fun ih hmem2 hpath => ?_⟩
              rcases List.mem_cons.mp hmem2 with h1 | h1
              · exact hpq (by rw [← hpath, h1])
              · exact hall ih h1 hpath
          · simp only [hstq, hceq, if_neg heq]
            refine ⟨fun hhit => ?_, fun hmiss => ?_⟩
            · obtain ⟨⟨ce, hce, hmem⟩, hnmem⟩ := ihp.1 hhit
              exact ⟨⟨ce, hce, hmem⟩, fun hmem2 => by
                rcases List.mem_cons.mp hmem2 with h1 | h1
                · exact hpq h1
                · exact hnmem h1⟩
            · obtain ⟨hmem, hall⟩ := ihp.2 hmiss
              exact ⟨List.mem_cons_of_mem q hmem, hall⟩

def rowPair (r : CacheRow) : String × CacheEntry :=
  (r.path, ⟨r.mtime_ns, r.size, r.dhash⟩)

theorem saveCacheRows_paths (stat : String → Option (Int × Int)) :
    ∀ (hs : List ImageHash) (rows : List CacheRow),
      saveCacheRows stat hs = some rows →
      rows.map CacheRow.path = hs.map ImageHash.path := by
  intro hs
  induction hs with
  | nil =>
    intro rows h
    simp only [saveCacheRows, Option.some.injEq] at h
    subst h
    rfl
  | cons ihd t ih =>
    intro rows h
    simp only [saveCacheRows] at h
    cases hst : stat ihd.path with
    | none => rw [hst] at h; exact absurd h (by simp)
    | some st =>
      rw [hst] at h
      cases hrec : saveCacheRows stat t with
      | none => rw [hrec] at h; exact absurd h (by simp)
      | some trows =>
        rw [hrec] at h
        simp only [Option.some.injEq] at h
        subst h
        simp [ih trows hrec]

theorem saveCacheRows_mem (stat : String → Option (Int × Int)) :
    ∀ (hs : List ImageHash) (rows : List CacheRow),
      saveCacheRows stat hs = some rows →
      ∀ h ∈ hs, ∀ st, stat h.path = some st →
        CacheRow.mk h.path st.1 st.2 h.dhash ∈ rows := by
  intro hs
  induction hs with
  | nil => intro rows _ h hmem; simp at hmem
  | cons ihd t ih =>
    intro rows hrows h hmem st hstat
    simp only [saveCacheRows] at hrows
    cases hst : stat ihd.path with
    | none => rw [hst] at hrows; exact absurd hrows (by simp)
    | some st2 =>
      rw [hst] at hrows
      cases hrec : saveCacheRows stat t with
      | none => rw [hrec] at hrows; exact absurd hrows (by simp)
      | some trows =>
        rw [hrec] at hrows
        simp only [Option.some.injEq] at hrows
        subst hrows
        rcases List.mem_cons.mp hmem with h1 | h1
        · subst h1
          rw [hstat] at hst
          cases hst
          simp
        · exact List.mem_cons_of_mem _ (ih trows hrec h h1 st hstat)

theorem load_cache_foldl (rows : List CacheRow) :
    ∀ (m : List (String × CacheEntry)),
      (rows.map CacheRow.path).Nodup →
      (∀ kv ∈ m, kv.1 ∉ rows.map CacheRow.path) →
      rows.foldl (fun m r => dictInsert m r.path ⟨r.mtime_ns, r.size, r.dhash⟩) m =
        m ++ rows.map rowPair := by
  induction rows with
  | nil => intro m _ _; simp
  | cons r rest ih =>
    intro m hnd hdisj
    rw [List.foldl_cons]
    have hnotin : ¬m.any (fun kv => kv.1 = r.path) := by
      simp only [List.any_eq_true, not_exists, not_and]
      intro kv hkv
      have := hdisj kv hkv
      simp only [List.map_cons, List.mem_cons, not_or] at this
      intro hfalse
      exact this.1 (by simpa using hfalse)
    rw [show dictInsert m r.path ⟨r.mtime_ns, r.size, r.dhash⟩ =
        m ++ [(r.path, ⟨r.mtime_ns, r.size, r.dhash⟩)] from by
      unfold dictInsert
      rw [if_neg hnotin]]
    have hdisj2 : ∀ kv ∈ m ++ [((r.path : String),
        (⟨r.mtime_ns, r.size, r.dhash⟩ : CacheEntry))],
        kv.1 ∉ rest.map CacheRow.path := by
      intro kv hkv
      rcases List.mem_append.mp hkv with h1 | h1
      · have := hdisj kv h1
        simp only [List.map_cons, List.mem_cons, not_or] at this
        exact this.2
      · simp only [List.mem_singleton] at h1
        subst h1
        exact (List.nodup_cons.mp (by simpa using hnd)).1
    have hih := ih (m ++ [((r.path : String),
        (⟨r.mtime_ns, r.size, r.dhash⟩ : CacheEntry))])
      (by simpa using (List.nodup_cons.mp (by simpa using hnd)).2) hdisj2
    rw [hih]
    simp [rowPair]

theorem load_cache_eq_map (rows : List CacheRow)
    (hnd : (rows.map CacheRow.path).Nodup) :
    load_cache rows = rows.map rowPair := by
  unfold load_cache
  rw [load_cache_foldl rows [] hnd (by simp)]
  simp

theorem dictGet_map (rows : List CacheRow)
    (hnd : (rows.map CacheRow.path).Nodup) :
    ∀ r ∈ rows, dictGet (rows.map rowPair) r.path =
      some ⟨r.mtime_ns, r.size, r.dhash⟩ := by
  induction rows with
  | nil => intro r h; simp at h
  | cons r0 rest ih =>
    intro r hr
    simp only [List.map_cons, rowPair, dictGet]
    rcases List.mem_cons.mp hr with h1 | h1
    · subst h1
      rw [if_pos rfl]
    · have hne : r0.path ≠ r.path := by
        intro hpath
        have : r0.path ∈ rest.map CacheRow.path :=
          hpath ▸ List.mem_map_of_mem CacheRow.path h1
        exact (List.nodup_cons.mp (by simpa using hnd)).1 this
      rw [if_neg hne]
      exact ih (List.nodup_cons.mp (by simpa using hnd)).2 r h1

/-! ## Claim theorems -/

/-- C9: for all 64-bit fingerprints `a` and `b`, `hamming_distance a b =
hamming_distance b a`, `hamming_distance a a = 0`, and the distance lies
in the range `[0, 64]`. -/
theorem claim_C9 (a b : Nat) (ha : a < 2 ^ 64) (hb : b < 2 ^ 64) :
    hamming_distance a b = hamming_distance b a ∧
    hamming_distance a a = 0 ∧
    0 ≤ hamming_distance a b ∧ hamming_distance a b ≤ 64 :=
  ⟨hamming_distance_comm a b, hamming_distance_self a,
    Nat.zero_le _, hamming_distance_le_64 ha hb⟩

theorem claim_C9_witness :
    hamming_distance 5 9 = hamming_distance 9 5 ∧
    hamming_distance 5 5 = 0 ∧
    0 ≤ hamming_distance 5 9 ∧ hamming_distance 5 9 ≤ 64 :=
  claim_C9 5 9 (by decide) (by decide)

/-- C10: for every query and reference sequence, `find_best_match` echoes
the query's path and hash in `edited_path`/`edited_hash`, and its status
is exactly `"matched"` or `"no_match"` — the third declared status value
`"unreadable"` is never produced by the matcher. -/
theorem claim_C10 (edited : ImageHash) (raw_hashes : List ImageHash) (md : Int) :
    (find_best_match edited raw_hashes md).edited_path = edited.path ∧
    (find_best_match edited raw_hashes md).edited_hash = edited.dhash ∧
    ((find_best_match edited raw_hashes md).status = "matched" ∨
      (find_best_match edited raw_hashes md).status = "no_match") := by
  unfold find_best_match
  rcases hs : scanLoop edited.dhash raw_hashes 0 (none, 10 ^ 9) with ⟨bi, bd⟩
  cases bi with
  | none => exact ⟨rfl, rfl, Or.inr rfl⟩
  | some i =>
    dsimp only
    by_cases hmd : (bd : Int) ≤ md
    · rw [if_pos hmd]
      exact ⟨rfl, rfl, Or.inl rfl⟩
    · rw [if_neg hmd]
      exact ⟨rfl, rfl, Or.inr rfl⟩

/-- C3: for the decoded 9×8 luminance grid, the fingerprint bit for row
`r` and column `c` (packed row-major, first comparison in the most
significant bit) is 1 iff the pixel at `(r, c+1)` is strictly greater
than the pixel at `(r, c)`; and the fingerprint is a pure function of
the pixel values, so identical pixel content yields an identical value. -/
theorem claim_C3 (px : List Nat) (hlen : px.length = 72) (r c : Nat)
    (hr : r < 8) (hc : c < 8) :
    ((dhash_of_pixels px).testBit (63 - (r * 8 + c)) =
      decide (px.getD (r * 9 + c) 0 < px.getD (r * 9 + c + 1) 0)) ∧
    ∀ px2, px2.length = 72 → px = px2 →
      dhash_of_pixels px = dhash_of_pixels px2 :=
  ⟨dhash_of_pixels_testBit px r c hr hc, fun _ _ h => h ▸ rfl⟩

theorem claim_C3_witness :
    (dhash_of_pixels (List.range 72)).testBit 63 = true :=
  ((claim_C3 (List.range 72) (by decide) 0 0 (by decide) (by decide)).1).trans
    (by decide)

/-- C8: `dhash64` returns either a fingerprint or `None` on decode
failure (no exception escapes), and the orchestrator's query-hashing
loop excludes each file whose decode failed while continuing to process
the remaining files of the batch. -/
theorem claim_C8 (decode : String → Option (List Nat)) (paths : List String) :
    (∀ p, (dhash64 decode p = none ↔ decode p = none) ∧
      ∀ px, decode p = some px → dhash64 decode p = some (dhash_of_pixels px)) ∧
    hash_edited_images decode paths = paths.filterMap (hash_path_worker decode) ∧
    (∀ ih ∈ hash_edited_images decode paths,
      ih.path ∈ paths ∧ decode ih.path ≠ none) ∧
    (∀ p ∈ paths, ∀ px, decode p = some px →
      ImageHash.mk p (dhash_of_pixels px) ∈ hash_edited_images decode paths) := by
  have hbody : hash_edited_images decode paths =
      paths.foldl
        (fun out p =>
          match hash_path_worker decode p with
          | none => out
          | some r => out ++ [r])
        [] := by
    unfold hash_edited_images
    congr 1
    funext out p
    unfold hash_path_worker
    cases dhash64 decode p <;> rfl
  have hfm : hash_edited_images decode paths =
      paths.filterMap (hash_path_worker decode) := by
    rw [hbody, foldl_collect]
    simp
  refine ⟨fun p => ⟨?_, fun px hpx => ?_⟩, hfm, fun ih hih => ?_, fun p hp px hpx => ?_⟩
  · unfold dhash64
    cases decode p <;> simp
  · unfold dhash64
    rw [hpx]
    rfl
  · rw [hfm] at hih
    obtain ⟨p, hp, hw⟩ := List.mem_filterMap.mp hih
    unfold hash_path_worker at hw
    cases hd : dhash64 decode p with
    | none => rw [hd] at hw; exact absurd hw (by simp)
    | some h =>
      rw [hd] at hw
      simp only [Option.some.injEq] at hw
      subst hw
      refine ⟨hp, fun hdec => ?_⟩
      unfold dhash64 at hd
      rw [hdec] at hd
      exact absurd hd (by simp)
  · rw [hfm]
    refine List.mem_filterMap.mpr ⟨p, hp, ?_⟩
    unfold hash_path_worker dhash64
    rw [hpx]
    rfl

theorem hamming_lt_sentinel {edited : ImageHash} {raw_hashes : List ImageHash}
    (hq : edited.dhash < 2 ^ 64) (href : ∀ rh ∈ raw_hashes, rh.dhash < 2 ^ 64) :
    ∀ rh ∈ raw_hashes, hamming_distance edited.dhash rh.dhash < 10 ^ 9 :=
  fun rh hrh =>
    lt_of_le_of_lt (hamming_distance_le_64 hq (href rh hrh)) (by norm_num)

/-- C1: `find_best_match` returns status `"matched"` iff the reference
set is non-empty and the minimum Hamming distance to it is at most
`max_distance`; on an empty reference set the distance and matched path
are absent and the status is `"no_match"`; when the reference set is
non-empty but every distance exceeds `max_distance`, the status is
`"no_match"` while the nearest candidate's path, fingerprint and
distance are still reported. -/
theorem claim_C1 (edited : ImageHash) (raw_hashes : List ImageHash) (md : Int)
    (hq : edited.dhash < 2 ^ 64) (href : ∀ rh ∈ raw_hashes, rh.dhash < 2 ^ 64)
    (hmd : 0 ≤ md) :
    ((find_best_match edited raw_hashes md).status = "matched" ↔
      raw_hashes ≠ [] ∧ ∃ rh ∈ raw_hashes,
        (hamming_distance edited.dhash rh.dhash : Int) ≤ md) ∧
    (raw_hashes = [] →
      (find_best_match edited raw_hashes md).distance = none ∧
      (find_best_match edited raw_hashes md).matched_raw_path = none ∧
      (find_best_match edited raw_hashes md).status = "no_match") ∧
    (raw_hashes ≠ [] →
      (∀ rh ∈ raw_hashes, md < (hamming_distance edited.dhash rh.dhash : Int)) →
      (find_best_match edited raw_hashes md).status = "no_match" ∧
      ∃ rh ∈ raw_hashes,
        (find_best_match edited raw_hashes md).matched_raw_path = some rh.path ∧
        (find_best_match edited raw_hashes md).matched_raw_hash = some rh.dhash ∧
        (find_best_match edited raw_hashes md).distance =
          some (hamming_distance edited.dhash rh.dhash) ∧
        ∀ rh2 ∈ raw_hashes,
          hamming_distance edited.dhash rh.dhash ≤
            hamming_distance edited.dhash rh2.dhash) := by
  by_cases hne : raw_hashes = []
  · subst hne
    rw [find_best_match_nil]
    refine ⟨?_, fun _ => ⟨rfl, rfl, rfl⟩, fun h _ => absurd rfl h⟩
    constructor
    · intro h
      simp at h
    · rintro ⟨h, -⟩
      exact absurd rfl h
  · obtain ⟨k, hk, heq, hmin, hfirst⟩ :=
      find_best_match_spec edited raw_hashes md (hamming_lt_sentinel hq href) hne
    have hminmem : ∀ rh ∈ raw_hashes,
        hamming_distance edited.dhash (raw_hashes.get ⟨k, hk⟩).dhash ≤
          hamming_distance edited.dhash rh.dhash := by
      intro rh hrh
      obtain ⟨n, hn⟩ := List.mem_iff_get.mp hrh
      have := hmin n.1 n.2
      rwa [hn] at this
    refine ⟨?_, fun h => absurd h hne, fun _ hall => ?_⟩
    · constructor
      · intro h
        rw [heq] at h
        by_cases hc : (hamming_distance edited.dhash
            (raw_hashes.get ⟨k, hk⟩).dhash : Int) ≤ md
        · exact ⟨hne, raw_hashes.get ⟨k, hk⟩, List.get_mem raw_hashes k hk, hc⟩
        · rw [if_neg hc] at h
          simp at h
      · rintro ⟨-, rh, hrh, hd⟩
        rw [heq]
        dsimp only
        rw [if_pos (le_trans (Int.ofNat_le.mpr (hminmem rh hrh)) hd)]
    · constructor
      · rw [heq]
        dsimp only
        rw [if_neg (not_le.mpr (hall (raw_hashes.get ⟨k, hk⟩)
          (List.get_mem raw_hashes k hk)))]
      · exact ⟨raw_hashes.get ⟨k, hk⟩, List.get_mem raw_hashes k hk,
          by rw [heq], by rw [heq], by rw [heq], hminmem⟩

theorem claim_C1_witness :
    (find_best_match ⟨"e", 3⟩ [⟨"r", 3⟩] 0).status = "matched" :=
  (claim_C1 ⟨"e", 3⟩ [⟨"r", 3⟩] 0 (by decide) (by decide) (by decide)).1.mpr
    ⟨by decide, ⟨"r", 3⟩, by decide, by decide⟩

/-- C2: for a non-empty reference sequence, `find_best_match` reports the
entry at the earliest index achieving the minimum Hamming distance — a
later entry with an equal distance never replaces the current best — and
the distance-0 short-circuit does not change this: when some entry has
distance 0, the reported best is the first such entry. -/
theorem claim_C2 (edited : ImageHash) (raw_hashes : List ImageHash) (md : Int)
    (hq : edited.dhash < 2 ^ 64) (href : ∀ rh ∈ raw_hashes, rh.dhash < 2 ^ 64)
    (hne : raw_hashes ≠ []) :
    ∃ k, ∃ hk : k < raw_hashes.length,
      (find_best_match edited raw_hashes md).matched_raw_path =
        some ((raw_hashes.get ⟨k, hk⟩).path) ∧
      (find_best_match edited raw_hashes md).matched_raw_hash =
        some ((raw_hashes.get ⟨k, hk⟩).dhash) ∧
      (find_best_match edited raw_hashes md).distance =
        some (hamming_distance edited.dhash (raw_hashes.get ⟨k, hk⟩).dhash) ∧
      (∀ j (hj : j < raw_hashes.length),
        hamming_distance edited.dhash (raw_hashes.get ⟨k, hk⟩).dhash ≤
          hamming_distance edited.dhash (raw_hashes.get ⟨j, hj⟩).dhash) ∧
      (∀ j (hj : j < raw_hashes.length), j < k →
        hamming_distance edited.dhash (raw_hashes.get ⟨k, hk⟩).dhash <
          hamming_distance edited.dhash (raw_hashes.get ⟨j, hj⟩).dhash) ∧
      (∀ j (hj : j < raw_hashes.length),
        hamming_distance edited.dhash (raw_hashes.get ⟨j, hj⟩).dhash = 0 →
        hamming_distance edited.dhash (raw_hashes.get ⟨k, hk⟩).dhash = 0 ∧ k ≤ j) := by
  obtain ⟨k, hk, heq, hmin, hfirst⟩ :=
    find_best_match_spec edited raw_hashes md (hamming_lt_sentinel hq href) hne
  refine ⟨k, hk, by rw [heq], by rw [heq], by rw [heq], hmin, hfirst, ?_⟩
  intro j hj hj0
  have h1 := hmin j hj
  constructor
  · omega
  · by_contra hjk
    have := hfirst j hj (by omega)
    omega

theorem claim_C2_witness :
    (find_best_match ⟨"e", 5⟩ [⟨"r", 5⟩] 0).distance = some 0 := by
  obtain ⟨k, hk, hpath, hhash, hdist, hmin, hfirst, hzero⟩ :=
    claim_C2 ⟨"e", 5⟩ [⟨"r", 5⟩] 0 (by decide) (by decide) (by decide)
  have hk0 : k = 0 := by
    have := hk
    simp only [List.length_cons, List.length_nil] at this
    omega
  subst hk0
  have hget : ([⟨"r", 5⟩] : List ImageHash).get ⟨0, hk⟩ = ⟨"r", 5⟩ := rfl
  rw [hget] at hdist
  rw [hdist]
  decide

/-- C4: during reference fingerprinting, a file with a loaded cache entry
for its canonical path is served from the cache — and not fingerprinted —
iff the entry's stored `mtime_ns` and `size` both exactly equal the live
values; on any difference, or with no entry, the file goes to the todo
list, is re-fingerprinted, and the recomputed hash enters the merged
output. -/
theorem claim_C4 (stat : String → Option (Int × Int))
    (decode : String → Option (List Nat))
    (cache : String → Option CacheEntry)
    (paths : List String) (workers : Nat)
    (hnd : paths.Nodup) (p : String) (hp : p ∈ paths)
    (st : Int × Int) (hst : stat p = some st) :
    ((∃ ce, cache p = some ce ∧ ce.mtime_ns = st.1 ∧ ce.size = st.2) →
      (∃ ce, cache p = some ce ∧
        ImageHash.mk p ce.dhash ∈ (partitionCache stat cache paths).1) ∧
      p ∉ (partitionCache stat cache paths).2) ∧
    ((∀ ce, cache p = some ce → ¬(ce.mtime_ns = st.1 ∧ ce.size = st.2)) →
      p ∈ (partitionCache stat cache paths).2 ∧
      (∀ ih ∈ (partitionCache stat cache paths).1, ih.path ≠ p) ∧
      ∀ px, decode p = some px →
        ImageHash.mk p (dhash_of_pixels px) ∈
          (hash_raw_images stat decode cache paths workers).1) := by
  have hspec := partitionCache_spec stat cache paths hnd p hp st hst
  refine ⟨hspec.1, fun hmiss => ?_⟩
  obtain ⟨htodo, hreuse⟩ := hspec.2 hmiss
  refine ⟨htodo, hreuse, fun px hpx => ?_⟩
  rw [hash_raw_images_eq]
  dsimp only
  refine List.mem_append.mpr (Or.inr ?_)
  refine List.mem_filterMap.mpr ⟨p, htodo, ?_⟩
  unfold hash_path_worker dhash64
  rw [hpx]
  rfl

theorem claim_C4_witness :
    ("a" : String) ∉ (partitionCache
      (fun q => if q = "a" then some ((1 : Int), (2 : Int)) else none)
      (fun q => if q = "a" then some (⟨1, 2, 7⟩ : CacheEntry) else none)
      ["a"]).2 :=
  ((claim_C4
      (fun q => if q = "a" then some ((1 : Int), (2 : Int)) else none)
      (fun _ => none)
      (fun q => if q = "a" then some (⟨1, 2, 7⟩ : CacheEntry) else none)
      ["a"] 1 (by decide) "a" (by decide) (1, 2) (by decide)).1
    ⟨⟨1, 2, 7⟩, by decide, rfl, rfl⟩).2

/-- C5: running reference fingerprinting with worker count exactly 1
produces the identical merged result as running it with any worker count
N > 1 over the same file set and initial cache state. -/
theorem claim_C5 (stat : String → Option (Int × Int))
    (decode : String → Option (List Nat))
    (cache : String → Option CacheEntry)
    (paths : List String) (n : Nat) (hn : 1 < n) :
    hash_raw_images stat decode cache paths 1 =
      hash_raw_images stat decode cache paths n := by
  rw [hash_raw_images_eq, hash_raw_images_eq]

theorem claim_C5_witness :
    hash_raw_images (fun _ => none) (fun _ => some [])
        (fun _ => none) ["a", "b"] 1 =
      hash_raw_images (fun _ => none) (fun _ => some [])
        (fun _ => none) ["a", "b"] 2 :=
  claim_C5 (fun _ => none) (fun _ => some []) (fun _ => none) ["a", "b"] 2
    (by decide)

/-- C6 (counterexample): when every enumerated file is served from the
cache, `_hash_raw_images` returns before calling `save_cache`, so the
cache file keeps its prior content (here including a stale row for a
file `b` that no longer exists) instead of being overwritten with the
snapshot of the merged mapping — refuting the claim that the merged
mapping is always written as a complete snapshot whose content does not
depend on the prior content. -/
theorem claim_C6_counterexample :
    hash_raw_run
      (fun q => if q = "a" then some ((1 : Int), (2 : Int)) else none)
      (fun _ => none)
      (fun q => if q = "a" then some (⟨1, 2, 5⟩ : CacheEntry) else none)
      ["a"] 1
      ⟨true, some [⟨"a", 1, 2, 5⟩, ⟨"b", 0, 0, 9⟩]⟩ =
      some ([⟨"a", 5⟩], ⟨true, some [⟨"a", 1, 2, 5⟩, ⟨"b", 0, 0, 9⟩]⟩) ∧
    saveCacheRows (fun q => if q = "a" then some ((1 : Int), (2 : Int)) else none)
      [⟨"a", 5⟩] = some [⟨"a", 1, 2, 5⟩] ∧
    (some [⟨"a", 1, 2, 5⟩, ⟨"b", 0, 0, 9⟩] : Option (List CacheRow)) ≠
      some [⟨"a", 1, 2, 5⟩] := by
  refine ⟨rfl, rfl, by decide⟩

/-- C6 (amended): when at least one enumerated file misses the cache, the
full merged mapping is written to the cache location as one complete
snapshot whose content does not depend on the cache file's prior content,
creating the parent directory if missing, in a single write at the end of
the phase; when every file is served from the cache, the cache file is
not rewritten and keeps its prior content. -/
theorem claim_C6 (stat : String → Option (Int × Int))
    (decode : String → Option (List Nat))
    (cache : String → Option CacheEntry)
    (paths : List String) (workers : Nat) (fsf : FsFile) :
    ((partitionCache stat cache paths).2 ≠ [] →
      ∀ rows,
        saveCacheRows stat (hash_raw_images stat decode cache paths workers).1 =
          some rows →
        hash_raw_run stat decode cache paths workers fsf =
          some ((hash_raw_images stat decode cache paths workers).1,
            ⟨true, some rows⟩)) ∧
    ((partitionCache stat cache paths).2 = [] →
      hash_raw_run stat decode cache paths workers fsf =
        some ((hash_raw_images stat decode cache paths workers).1, fsf)) := by
  have he := hash_raw_images_eq stat decode cache paths workers
  constructor
  · intro htodo rows hrows
    unfold hash_raw_run
    rcases hh : hash_raw_images stat decode cache paths workers with ⟨out, saved⟩
    have hsaved : saved = true := by
      rw [hh] at he
      have := congrArg Prod.snd he
      simpa [if_neg htodo] using this
    subst hsaved
    dsimp only
    have hout : (hash_raw_images stat decode cache paths workers).1 = out := by
      rw [hh]
    rw [hout] at hrows
    unfold save_cache
    rw [hrows]
  · intro htodo
    unfold hash_raw_run
    rcases hh : hash_raw_images stat decode cache paths workers with ⟨out, saved⟩
    have hsaved : saved = false := by
      rw [hh] at he
      have := congrArg Prod.snd he
      simpa [if_pos htodo] using this
    subst hsaved
    dsimp only

theorem claim_C6_witness :
    hash_raw_run
      (fun q => if q = "a" then some ((1 : Int), (2 : Int)) else none)
      (fun q => if q = "a" then some [] else none)
      (fun _ => none)
      ["a"] 1 ⟨false, none⟩ =
      some ([⟨"a", 0⟩], ⟨true, some [⟨"a", 1, 2, 0⟩]⟩) := by
  have h1 : (hash_raw_images
      (fun q => if q = "a" then some ((1 : Int), (2 : Int)) else none)
      (fun q => if q = "a" then some [] else none)
      (fun _ => none) ["a"] 1).1 = [⟨"a", 0⟩] := by decide
  have h2 := (claim_C6
    (fun q => if q = "a" then some ((1 : Int), (2 : Int)) else none)
    (fun q => if q = "a" then some [] else none)
    (fun _ => none)
    ["a"] 1 ⟨false, none⟩).1 (by decide) [⟨"a", 1, 2, 0⟩]
    (by rw [h1]; decide)
  rw [h1] at h2
  exact h2

/-- C7: saving N fingerprinted files with distinct paths and reloading
the cache yields a mapping with exactly the same N path keys, each bound
to the identical `(mtime_ns, size, fingerprint)` triple that was saved. -/
theorem claim_C7 (stat : String → Option (Int × Int))
    (hashes : List ImageHash) (rows : List CacheRow)
    (hnd : (hashes.map ImageHash.path).Nodup)
    (hsave : saveCacheRows stat hashes = some rows) :
    (load_cache rows).length = hashes.length ∧
    (load_cache rows).map Prod.fst = hashes.map ImageHash.path ∧
    ∀ h ∈ hashes, ∀ st, stat h.path = some st →
      dictGet (load_cache rows) h.path = some ⟨st.1, st.2, h.dhash⟩ := by
  have hpaths := saveCacheRows_paths stat hashes rows hsave
  have hndr : (rows.map CacheRow.path).Nodup := by
    rw [hpaths]
    exact hnd
  have hload := load_cache_eq_map rows hndr
  have hkeys : (load_cache rows).map Prod.fst = hashes.map ImageHash.path := by
    rw [hload, List.map_map, ← hpaths]
    rfl
  refine ⟨?_, hkeys, fun h hmem st hstat => ?_⟩
  · have := congrArg List.length hkeys
    simpa using this
  · have hrow := saveCacheRows_mem stat hashes rows hsave h hmem st hstat
    rw [hload]
    exact dictGet_map rows hndr ⟨h.path, st.1, st.2, h.dhash⟩ hrow

theorem claim_C7_witness :
    dictGet (load_cache [⟨"a", 1, 2, 7⟩, ⟨"b", 3, 4, 9⟩]) "a" = some ⟨1, 2, 7⟩ :=
  (claim_C7
    (fun q => if q = "a" then some ((1 : Int), (2 : Int)) else
      if q = "b" then some ((3 : Int), (4 : Int)) else none)
    [⟨"a", 7⟩, ⟨"b", 9⟩] [⟨"a", 1, 2, 7⟩, ⟨"b", 3, 4, 9⟩]
    (by decide) (by decide)).2.2 ⟨"a", 7⟩ (by decide) (1, 2) (by decide)

end SnapMatch
